import Mathlib

/-!
# Verification of the napi-decimal core (`src/src/lib.rs`)

Shallow embedding of the Rust library that parses a signed decimal string
into a sign tag, a fractional-digit count, and a BCD-packed byte vector.

Strings are modelled as `List Char`.  The Rust validator iterates
`char_indices`, which yields *byte* offsets; we use character positions
instead.  The two coincide on all-ASCII strings, and both the byte-offset
code and this character-position model reject every string containing a
non-ASCII character: the first character must be `+`, `-` or an ASCII
digit (all one byte), and any later non-ASCII character fails the
digit-or-point class check in the loop before any index shift could
matter.  The lemma `isValid_all_ascii` below confirms that accepted
strings are pure ASCII, so on the accepted domain the model is exact.

Bytes are modelled as `Nat`.  The nibble computation `byte - b'0'` uses
`Char.toNat - 48` (truncated `Nat` subtraction); on the packer's actual
domain every packed character is an ASCII digit (proved below), where
this coincides with the `u8` arithmetic of the source.
-/

namespace NapiDecimal

/-- Embedding of the Rust `Signature` enum. -/
inductive Signature where
  | Positive
  | Negative
  | Zero
deriving DecidableEq, Repr

/-- Embedding of the Rust `Decimal` struct: `num_of_decimals : u32`,
`signature : Signature`, `digits : Vec<u8>`. -/
structure Decimal where
  num_of_decimals : Nat
  signature : Signature
  digits : List Nat
deriving DecidableEq, Repr

/-- The per-character checks of the `for (i, c) in number.char_indices()`
loop of `Decimal::is_valid`; `len` is `number.chars().count()`.
Each `if …  return false` of the loop body becomes a `false` branch. -/
def charOk (len i : Nat) (c : Char) : Bool :=
  if i == 0 then true
  else if i == 1 && !c.isDigit then false
  else if i == len - 1 && !c.isDigit then false
  else if c != '.' && !c.isDigit then false
  else true

/-- Embedding of `Decimal::is_valid`. -/
def isValid (number : List Char) : Bool :=
  if number.length == 0 then
    false
  else
    let first_char : Char := number.headD default
    if first_char != '+' && first_char != '-' && !first_char.isDigit then
      false
    else
      number.enum.all fun ic => charOk number.length ic.1 ic.2

/-- Embedding of `Decimal::get_num_of_decimals`:
`number.split(".").nth(1)` is segment 1 of `splitOn '.'`, and the
source's truncating cast `d.chars().count() as u32` wraps the segment
length modulo `2 ^ 32`. -/
def get_num_of_decimals (number : List Char) : Nat :=
  let decimals : Option (List Char) := (number.splitOn '.').get? 1
  match decimals with
  | some d => d.length % 2 ^ 32
  | none => 0

/-- The string after `number.replace("+", "").replace("-", "").replace(".", "")`
in `Decimal::get_digits`. -/
def cleanedDigits (number : List Char) : List Char :=
  number.filter fun c => c != '+' && c != '-' && c != '.'

/-- The `parsed_number` string after the odd-length `'0'`-prepend of `Decimal::get_digits`. -/
def paddedDigits (number : List Char) : List Char :=
  if (cleanedDigits number).length % 2 != 0 then
    '0' :: cleanedDigits number
  else
    cleanedDigits number

/-- The nibble computation `c as u8 - b'0'` of the source, on the packer's domain (ASCII digits). -/
def nibbleOfChar (c : Char) : Nat :=
  c.toNat - 48

/-- Embedding of the packing loop of `Decimal::get_digits`:
`for i in 0..number_of_bytes` pushing `(high_nibble << 4) | low_nibble`. -/
def get_digits (number : List Char) : List Nat :=
  let parsed_number : List Char := paddedDigits number
  let number_of_bytes : Nat := parsed_number.length / 2
  (List.range number_of_bytes).map fun i =>
    let index : Nat := 2 * (number_of_bytes - i) - 1
    let low_nibble : Nat := nibbleOfChar (parsed_number.getD index default)
    let high_nibble : Nat := nibbleOfChar (parsed_number.getD (index - 1) default)
    (high_nibble <<< 4) ||| low_nibble

/-- Embedding of `Decimal::new`.  The source's `unwrap()` on the first
character is guarded by `is_valid` (which rejects the empty string);
here `headD default` is only reached with `number` non-empty. -/
def Decimal.new (number : List Char) : Option Decimal :=
  if !isValid number then
    none
  else
    let first_char : Char := number.headD default
    if first_char == '0' then
      some { num_of_decimals := 0, signature := Signature.Zero, digits := [0] }
    else
      let num_of_decimals : Nat := get_num_of_decimals number
      let signature : Signature :=
        if first_char == '-' then Signature.Negative else Signature.Positive
      let digits : List Nat := get_digits number
      some { num_of_decimals, signature, digits }

/-- Spec-side predicate: the numeric value written by the string is
exactly zero, i.e. every digit character occurring in it is `'0'`. -/
def zeroValued (number : List Char) : Bool :=
  number.all fun c => !c.isDigit || c == '0'

/-- Spec-side: the characters strictly after the first `'.'` (all of
them), empty when no `'.'` occurs. -/
def afterFirstPoint (s : List Char) : List Char :=
  (s.dropWhile fun c => c != '.').drop 1

/-- Spec-side: number of characters strictly after the first decimal
point (0 when there is none) — the quantity named by the claim. -/
def specFracCount (s : List Char) : Nat :=
  (afterFirstPoint s).length

/-- Spec-side: the characters strictly between the first `'.'` and the
second `'.'` (all remaining characters when there is no second point). -/
def betweenFirstAndSecondPoint (s : List Char) : List Char :=
  (afterFirstPoint s).takeWhile fun c => c != '.'

/-- Spec-side: the number of ASCII-digit characters of the input
(excluding sign and point characters). -/
def digitCount (s : List Char) : Nat :=
  (s.filter Char.isDigit).length

/-! ## Helper lemmas about the validator -/

/-- An ASCII-digit character has code point between 48 and 57. -/
lemma isDigit_toNat {c : Char} (h : c.isDigit = true) :
    48 ≤ c.toNat ∧ c.toNat ≤ 57 := by
  simp only [Char.isDigit, ge_iff_le, Bool.and_eq_true, decide_eq_true_eq] at h
  obtain ⟨h1, h2⟩ := h
  rw [UInt32.le_def, BitVec.le_def] at h1 h2
  exact ⟨h1, h2⟩

/-- A validated string is non-empty. -/
lemma isValid_ne_nil {s : List Char} (h : isValid s = true) : s ≠ [] := by
  intro hs
  rw [hs] at h
  simp [isValid] at h

/-- Restatement of `isValid` with its `let` bindings unfolded. -/
lemma isValid_eq (s : List Char) :
    isValid s =
      if s.length == 0 then false
      else if (s.headD default != '+' && s.headD default != '-'
          && !(s.headD default).isDigit) then false
      else s.enum.all fun ic => charOk s.length ic.1 ic.2 := rfl

/-- Splitting `isValid` into its three constituent checks. -/
lemma isValid_parts {s : List Char} (h : isValid s = true) :
    s ≠ [] ∧
    (s.headD default = '+' ∨ s.headD default = '-' ∨ (s.headD default).isDigit = true) ∧
    (∀ i, (hi : i < s.length) → charOk s.length i s[i] = true) := by
  have hne : s ≠ [] := isValid_ne_nil h
  rw [isValid_eq] at h
  split at h
  · exact absurd h (by simp)
  · split at h
    · exact absurd h (by simp)
    · next hfc =>
      refine ⟨hne, ?_, ?_⟩
      · by_contra hcon
        push_neg at hcon
        obtain ⟨h1, h2, h3⟩ := hcon
        apply hfc
        simp only [bne_iff_ne, ne_eq, Bool.and_eq_true, Bool.not_eq_eq_eq_not,
          Bool.not_true, decide_eq_true_eq]
        refine ⟨⟨by simpa using h1, by simpa using h2⟩, by simpa using h3⟩
      · intro i hi
        have hlen : i < s.enum.length := by simpa [List.enum] using hi
        have hmem : s.enum[i] ∈ s.enum := List.getElem_mem hlen
        have hval := List.all_eq_true.mp h _ hmem
        have : s.enum[i] = (i, s[i]) := by
          simp [List.enum, List.getElem_enumFrom]
        rwa [this] at hval

/-- Every character of a validated string at a position `≥ 1` is a point
or an ASCII digit. -/
lemma isValid_tail_class {s : List Char} (h : isValid s = true)
    {i : Nat} (hi : i < s.length) (h0 : i ≠ 0) :
    s[i] = '.' ∨ s[i].isDigit = true := by
  have hok := (isValid_parts h).2.2 i hi
  by_cases hd : s[i].isDigit = true
  · exact Or.inr hd
  · left
    rw [charOk] at hok
    have e0 : (i == 0) = false := by simpa using h0
    rw [e0] at hok
    simp only [if_false, Bool.ite_eq_true_distrib] at hok
    by_cases h1 : (i == 1 && !s[i].isDigit) = true
    · rw [if_pos h1] at hok; exact absurd hok (by simp)
    · rw [if_neg h1] at hok
      by_cases h2 : (i == s.length - 1 && !s[i].isDigit) = true
      · rw [if_pos h2] at hok; exact absurd hok (by simp)
      · rw [if_neg h2] at hok
        by_cases h3 : (s[i] != '.' && !s[i].isDigit) = true
        · rw [if_pos h3] at hok; exact absurd hok (by simp)
        · simp only [bne_iff_ne, ne_eq, Bool.and_eq_true, Bool.not_eq_eq_eq_not,
            Bool.not_true, decide_eq_true_eq, not_and] at h3
          by_contra hne
          exact hd (by simpa using h3 hne)

/-- Every character of a validated string is a sign, a point, or an
ASCII digit. -/
lemma isValid_class {s : List Char} (h : isValid s = true) :
    ∀ c ∈ s, c = '+' ∨ c = '-' ∨ c = '.' ∨ c.isDigit = true := by
  intro c hc
  obtain ⟨i, hi, rfl⟩ := List.getElem_of_mem hc
  rcases Nat.eq_zero_or_pos i with h0 | h0
  · subst h0
    have hhead := (isValid_parts h).2.1
    have : s.headD default = s[0] := by
      cases s with
      | nil => simp at hi
      | cons a t => rfl
    rw [this] at hhead
    rcases hhead with h' | h' | h'
    · exact Or.inl h'
    · exact Or.inr (Or.inl h')
    · exact Or.inr (Or.inr (Or.inr h'))
  · rcases isValid_tail_class h hi (Nat.pos_iff_ne_zero.mp h0) with h' | h'
    · exact Or.inr (Or.inr (Or.inl h'))
    · exact Or.inr (Or.inr (Or.inr h'))

/-- Every character of a validated string is ASCII. -/
lemma isValid_all_ascii {s : List Char} (h : isValid s = true) :
    ∀ c ∈ s, c.toNat < 128 := by
  intro c hc
  rcases isValid_class h c hc with rfl | rfl | rfl | hd
  · decide
  · decide
  · decide
  · have := (isDigit_toNat hd).2
    omega

/-! ## Helper lemmas about the packer -/

/-- After removing `+`, `-` and `.` from a validated string, only ASCII
digits remain. -/
lemma cleanedDigits_all_digits {s : List Char} (h : isValid s = true) :
    ∀ c ∈ cleanedDigits s, c.isDigit = true := by
  intro c hc
  rw [cleanedDigits, List.mem_filter] at hc
  obtain ⟨hmem, hcond⟩ := hc
  simp only [bne_iff_ne, ne_eq, Bool.and_eq_true, decide_eq_true_eq] at hcond
  obtain ⟨⟨hp, hm⟩, hd⟩ := hcond
  rcases isValid_class h c hmem with rfl | rfl | rfl | hdig
  · exact absurd rfl hp
  · exact absurd rfl hm
  · exact absurd rfl hd
  · exact hdig

/-- The padded digit string of a validated string consists of ASCII
digits only. -/
lemma paddedDigits_all_digits {s : List Char} (h : isValid s = true) :
    ∀ c ∈ paddedDigits s, c.isDigit = true := by
  intro c hc
  rw [paddedDigits] at hc
  split at hc
  · rcases List.mem_cons.mp hc with rfl | hc'
    · decide
    · exact cleanedDigits_all_digits h c hc'
  · exact cleanedDigits_all_digits h c hc

/-- The padded digit string has even length. -/
lemma paddedDigits_length_even (s : List Char) :
    (paddedDigits s).length % 2 = 0 := by
  rw [paddedDigits]
  split
  · next hodd =>
    simp only [bne_iff_ne, ne_eq] at hodd
    simp only [List.length_cons]
    omega
  · next heven =>
    simp only [bne_iff_ne, ne_eq, not_not] at heven
    exact heven

/-- The padded digit string has exactly twice as many characters as the
packed byte vector has bytes. -/
lemma paddedDigits_length (s : List Char) :
    (paddedDigits s).length = 2 * ((paddedDigits s).length / 2) := by
  have := paddedDigits_length_even s
  omega

/-- For nibbles below 16, `(h <<< 4) ||| l` is `16 * h + l`. -/
lemma shiftLeft_lor_eq : ∀ h, h < 16 → ∀ l, l < 16 →
    (h <<< 4) ||| l = 16 * h + l := by decide

/-- The nibble of an ASCII digit character is at most 9. -/
lemma nibbleOfChar_le_nine {c : Char} (h : c.isDigit = true) :
    nibbleOfChar c ≤ 9 := by
  have := isDigit_toNat h
  rw [nibbleOfChar]
  omega

/-- Any in-range position of the padded digit string of a validated
string holds an ASCII digit. -/
lemma getD_isDigit_of_valid {s : List Char} (hv : isValid s = true)
    {i : Nat} (hi : i < (paddedDigits s).length) :
    ((paddedDigits s).getD i default).isDigit = true := by
  rw [List.getD_eq_getElem?_getD, List.getElem?_eq_getElem hi, Option.getD_some]
  exact paddedDigits_all_digits hv _ (List.getElem_mem hi)

/-- The bytes of `get_digits`, element by element, still in the
`(high <<< 4) ||| low` form of the source. -/
lemma get_digits_getD (s : List Char) {i : Nat}
    (hi : i < (paddedDigits s).length / 2) :
    (get_digits s).getD i 0 =
      ((nibbleOfChar ((paddedDigits s).getD
          (2 * ((paddedDigits s).length / 2 - i) - 1 - 1) default)) <<< 4) |||
        (nibbleOfChar ((paddedDigits s).getD
          (2 * ((paddedDigits s).length / 2 - i) - 1) default)) := by
  have hlen : (get_digits s).length = (paddedDigits s).length / 2 := by
    simp [get_digits]
  have hi' : i < (get_digits s).length := by rw [hlen]; exact hi
  rw [List.getD_eq_getElem?_getD, List.getElem?_eq_getElem hi']
  simp only [get_digits, List.getElem_map, List.getElem_range, Option.getD_some]

/-- Length of the packed byte vector. -/
lemma get_digits_length (s : List Char) :
    (get_digits s).length = (paddedDigits s).length / 2 := by
  simp [get_digits]

/-! ## Helper lemmas about `splitOn` and the fractional-digit count -/

/-- The first segment produced by `splitOnP` is the longest prefix on
which the predicate fails. -/
lemma splitOnP_head? {α : Type} (p : α → Bool) :
    ∀ xs : List α, (xs.splitOnP p).head? = some (xs.takeWhile fun a => !p a) := by
  intro xs
  induction xs with
  | nil => simp [List.splitOnP_nil]
  | cons x xs ih =>
    rw [List.splitOnP_cons]
    by_cases hp : p x = true
    · simp [hp, List.takeWhile_cons]
    · have hne : xs.splitOnP p ≠ [] := List.splitOnP_ne_nil p xs
      obtain ⟨h, t, he⟩ := List.exists_cons_of_ne_nil hne
      rw [he] at ih ⊢
      simp only [List.head?_cons, Option.some.injEq] at ih
      simp [hp, List.takeWhile_cons, ih]

/-- Applying `modifyHead` does not change the element at index 1. -/
lemma modifyHead_getElem?_one {α : Type} (f : α → α) (l : List α) :
    (l.modifyHead f)[1]? = l[1]? := by
  cases l <;> simp

/-- Restatement of `get_num_of_decimals` as an `Option` fold over
segment 1, with the truncating `as u32` cast applied to the length. -/
lemma get_num_of_decimals_def (s : List Char) :
    get_num_of_decimals s =
      (((s.splitOn '.').get? 1).map List.length).getD 0 % 2 ^ 32 := by
  cases h : (s.splitOn '.').get? 1 <;>
    simp [get_num_of_decimals, ← List.get?_eq_getElem?, h]

/-- Segment 1 of the point-split is the part of the string between the
first and the second decimal point (all remaining characters when there
is at most one point). -/
lemma splitOn_segment_one :
    ∀ s : List Char, (((s.splitOn '.').get? 1).map List.length).getD 0 =
      (betweenFirstAndSecondPoint s).length := by
  intro s
  induction s with
  | nil => rfl
  | cons x xs ih =>
    rw [List.get?_eq_getElem?, List.splitOn, List.splitOnP_cons]
    by_cases hx : (x == '.') = true
    · rw [if_pos hx]
      have hx' : x = '.' := by simpa using hx
      subst hx'
      rw [List.getElem?_cons_succ]
      have hhead := splitOnP_head? (fun c : Char => c == '.') xs
      rw [← List.head?_eq_getElem?, hhead]
      rw [betweenFirstAndSecondPoint, afterFirstPoint, List.dropWhile_cons]
      simp [bne]
    · rw [if_neg hx, modifyHead_getElem?_one]
      rw [List.get?_eq_getElem?, List.splitOn] at ih
      rw [ih]
      have hx' : x ≠ '.' := by simpa using hx
      rw [betweenFirstAndSecondPoint, betweenFirstAndSecondPoint,
        afterFirstPoint, afterFirstPoint, List.dropWhile_cons]
      simp [hx']

/-- What the source actually computes: the number of characters between
the first and the second decimal point (all remaining characters when
there is at most one point), wrapped modulo `2 ^ 32` by the `as u32`
cast. -/
lemma get_num_of_decimals_eq (s : List Char) :
    get_num_of_decimals s = (betweenFirstAndSecondPoint s).length % 2 ^ 32 := by
  rw [get_num_of_decimals_def, splitOn_segment_one]

/-- On validated strings, stripping `+`, `-` and `.` is the same as
keeping exactly the ASCII-digit characters. -/
lemma cleanedDigits_eq_filter_isDigit {s : List Char} (h : isValid s = true) :
    cleanedDigits s = s.filter Char.isDigit := by
  rw [cleanedDigits]
  apply List.filter_congr
  intro c hc
  rcases isValid_class h c hc with rfl | rfl | rfl | hd
  · decide
  · decide
  · decide
  · have h1 : c ≠ '+' := by rintro rfl; exact absurd hd (by decide)
    have h2 : c ≠ '-' := by rintro rfl; exact absurd hd (by decide)
    have h3 : c ≠ '.' := by rintro rfl; exact absurd hd (by decide)
    simp [h1, h2, h3, hd]

/-! ## Claim theorems -/

/-- C1 (counterexample): the claim as stated is false.  `"+0"` is
accepted, its numeric value is exactly zero, yet the resulting record's
sign is `Positive`, not `Zero`: the code assigns `Zero` only when the
first character is `'0'`. -/
theorem C1_counterexample :
    isValid "+0".data = true ∧ zeroValued "+0".data = true ∧
      (Decimal.new "+0".data).map Decimal.signature = some Signature.Positive ∧
      Signature.Positive ≠ Signature.Zero := by decide

/-- C1 (amended): for every accepted zero-valued input, the sign is
`Zero` exactly when the first character is `'0'`; a leading `'-'` gives
`Negative` and a leading `'+'` (or digit) gives `Positive`. -/
theorem C1_sign_of_zero_valued (s : List Char) (hv : isValid s = true)
    (hz : zeroValued s = true) :
    (Decimal.new s).map Decimal.signature =
      some (if s.headD default == '0' then Signature.Zero
        else if s.headD default == '-' then Signature.Negative
        else Signature.Positive) := by
  obtain ⟨a, t, rfl⟩ := List.exists_cons_of_ne_nil (isValid_ne_nil hv)
  by_cases h0 : a = '0'
  · subst h0; simp [Decimal.new, hv]
  · by_cases hm : a = '-'
    · subst hm; simp [Decimal.new, hv]
    · simp [Decimal.new, hv, h0, hm]

/-- C1 (witness): the amended statement applied at `"+0"`. -/
theorem C1_witness :
    isValid "+0".data = true ∧ zeroValued "+0".data = true ∧
      (Decimal.new "+0".data).map Decimal.signature =
        some (if "+0".data.headD default == '0' then Signature.Zero
          else if "+0".data.headD default == '-' then Signature.Negative
          else Signature.Positive) :=
  ⟨by decide, by decide, C1_sign_of_zero_valued _ (by decide) (by decide)⟩

/-- C2 (code bug): the one-character string `"+"` ends in a non-digit,
yet `is_valid` accepts it and `new` returns a present record — the
last-character check of the validation loop is skipped for index 0 by
the `i == 0` `continue`, so it never fires on one-character input. -/
theorem C2_bare_sign_accepted :
    isValid "+".data = true ∧
      Decimal.new "+".data =
        some { num_of_decimals := 0, signature := Signature.Positive,
               digits := [] } := by decide

/-- C3 (code bug): `"-"` is accepted and produces a record whose
`digits` vector is empty, violating the claimed invariant that
`packed_digits` is never empty. -/
theorem C3_bare_sign_empty_digits :
    isValid "-".data = true ∧
      Decimal.new "-".data =
        some { num_of_decimals := 0, signature := Signature.Negative,
               digits := [] } ∧
      (Decimal.new "-".data).map Decimal.digits = some [] := by decide

/-- C3 (supporting): the nibble half of the invariant does hold — every
byte of every packed vector of an accepted input has both nibbles in
range 0–9. -/
theorem C3_nibbles_in_range (s : List Char) (hv : isValid s = true) :
    ∀ b ∈ (Decimal.new s).elim [] Decimal.digits, b / 16 ≤ 9 ∧ b % 16 ≤ 9 := by
  intro b hb
  obtain ⟨a, t, rfl⟩ := List.exists_cons_of_ne_nil (isValid_ne_nil hv)
  by_cases h0 : a = '0'
  · subst h0
    simp [Decimal.new, hv] at hb
    subst hb
    decide
  · simp [Decimal.new, hv, h0] at hb
    simp only [get_digits, List.mem_map, List.mem_range] at hb
    obtain ⟨i, hi, rfl⟩ := hb
    have heven : (paddedDigits (a :: t)).length =
        2 * ((paddedDigits (a :: t)).length / 2) := paddedDigits_length (a :: t)
    set N := (paddedDigits (a :: t)).length / 2 with hN
    have hidx1 : 2 * (N - i) - 1 < (paddedDigits (a :: t)).length := by omega
    have hidx2 : 2 * (N - i) - 1 - 1 < (paddedDigits (a :: t)).length := by omega
    have hb1 := nibbleOfChar_le_nine (getD_isDigit_of_valid hv hidx1)
    have hb2 := nibbleOfChar_le_nine (getD_isDigit_of_valid hv hidx2)
    rw [shiftLeft_lor_eq _ (by omega) _ (by omega)]
    omega

/-- C4 (counterexample): the claim offers `"0.5"` as an accepted input
taking the zero path, but the validator rejects it (the second character
must be an ASCII digit), so `new` returns `none` for it. -/
theorem C4_counterexample :
    isValid "0.5".data = false ∧ Decimal.new "0.5".data = none := by decide

/-- C4 (amended): for every *accepted* input whose first character is
`'0'` (e.g. `"0"`, `"01"`; `"0.5"` is not accepted), `new` returns the
fixed zero record: sign `Zero`, no decimals, digits `[0x00]`. -/
theorem C4_zero_path (s : List Char) (hv : isValid s = true)
    (h0 : s.headD default = '0') :
    Decimal.new s =
      some { num_of_decimals := 0, signature := Signature.Zero,
             digits := [0] } := by
  obtain ⟨a, t, rfl⟩ := List.exists_cons_of_ne_nil (isValid_ne_nil hv)
  simp only [List.headD_cons] at h0
  subst h0
  simp [Decimal.new, hv]

/-- C4 (witness): the amended statement applied at `"01"`. -/
theorem C4_witness :
    isValid "01".data = true ∧ "01".data.headD default = '0' ∧
      Decimal.new "01".data =
        some { num_of_decimals := 0, signature := Signature.Zero,
               digits := [0] } :=
  ⟨by decide, by decide, C4_zero_path _ (by decide) (by decide)⟩

/-- C5 (counterexample): the claim as stated is false.  `"12.3.4"` is
accepted and does not take the zero path; the characters strictly after
the first point number 3, but the code reports `num_of_decimals = 1`
(only the segment between the first and the second point). -/
theorem C5_counterexample :
    isValid "12.3.4".data = true ∧ "12.3.4".data.headD default ≠ '0' ∧
      (Decimal.new "12.3.4".data).map Decimal.num_of_decimals = some 1 ∧
      specFracCount "12.3.4".data = 3 ∧ (1 : Nat) ≠ 3 := by decide

/-- C5 (amended): for every accepted input not taking the zero path,
`num_of_decimals` equals the number of characters strictly after the
first decimal point and before the second one (all remaining characters
when at most one point is present, 0 when there is none), wrapped
modulo `2 ^ 32` by the `as u32` cast that stores it into the `u32`
field. -/
theorem C5_frac_count (s : List Char) (hv : isValid s = true)
    (h0 : s.headD default ≠ '0') :
    (Decimal.new s).map Decimal.num_of_decimals =
      some ((betweenFirstAndSecondPoint s).length % 2 ^ 32) := by
  obtain ⟨a, t, rfl⟩ := List.exists_cons_of_ne_nil (isValid_ne_nil hv)
  simp only [List.headD_cons] at h0
  simp [Decimal.new, hv, h0, get_num_of_decimals_eq]

/-- C5 (witness): the amended statement applied at `"12.5"`. -/
theorem C5_witness :
    isValid "12.5".data = true ∧ "12.5".data.headD default ≠ '0' ∧
      (Decimal.new "12.5".data).map Decimal.num_of_decimals =
        some ((betweenFirstAndSecondPoint "12.5".data).length % 2 ^ 32) :=
  ⟨by decide, by decide, C5_frac_count _ (by decide) (by decide)⟩

/-- C6 (confirmed): for every accepted non-zero-leading input, output
byte `i` (of `N` total) holds the digits of the padded digit string at
offsets `2*(N-i)-2` (high nibble) and `2*(N-i)-1` (low nibble); and
`new "+1234.56789"` is present with sign `Positive`, 5 decimals and
digits `[0x89, 0x67, 0x45, 0x23, 0x01]`. -/
theorem C6_packing :
    (∀ s : List Char, isValid s = true → s.headD default ≠ '0' →
      (get_digits s).length = (paddedDigits s).length / 2 ∧
      ∀ i, i < (paddedDigits s).length / 2 →
        (get_digits s).getD i 0 =
          16 * nibbleOfChar ((paddedDigits s).getD
              (2 * ((paddedDigits s).length / 2 - i) - 2) default) +
            nibbleOfChar ((paddedDigits s).getD
              (2 * ((paddedDigits s).length / 2 - i) - 1) default)) ∧
    Decimal.new "+1234.56789".data =
      some { num_of_decimals := 5, signature := Signature.Positive,
             digits := [0x89, 0x67, 0x45, 0x23, 0x01] } := by
  constructor
  · intro s hv h0
    refine ⟨get_digits_length s, ?_⟩
    intro i hi
    rw [get_digits_getD s hi]
    have heven : (paddedDigits s).length = 2 * ((paddedDigits s).length / 2) :=
      paddedDigits_length s
    set N := (paddedDigits s).length / 2 with hN
    have hidx1 : 2 * (N - i) - 1 < (paddedDigits s).length := by omega
    have hidx2 : 2 * (N - i) - 1 - 1 < (paddedDigits s).length := by omega
    have hb1 := nibbleOfChar_le_nine (getD_isDigit_of_valid hv hidx1)
    have hb2 := nibbleOfChar_le_nine (getD_isDigit_of_valid hv hidx2)
    rw [shiftLeft_lor_eq _ (by omega) _ (by omega)]
    have hii : 2 * (N - i) - 1 - 1 = 2 * (N - i) - 2 := by omega
    rw [hii]
  · decide

/-- C6 (witness): the general packing statement applied at
`"+1234.56789"`. -/
theorem C6_witness :
    isValid "+1234.56789".data = true ∧
      "+1234.56789".data.headD default ≠ '0' ∧
      (get_digits "+1234.56789".data).length =
        (paddedDigits "+1234.56789".data).length / 2 :=
  ⟨by decide, by decide, (C6_packing.1 _ (by decide) (by decide)).1⟩

/-- C7 (confirmed): `new` returns a present value exactly when
`is_valid` accepts the string; rejection yields `none`, never a fault
and never a partial record. -/
theorem C7_present_iff_valid (s : List Char) :
    (Decimal.new s).isSome = isValid s := by
  by_cases hv : isValid s = true
  · rw [hv]
    simp only [Decimal.new, hv, Bool.not_true, Bool.false_eq_true, if_false]
    split <;> rfl
  · have hv' : isValid s = false := by simpa using hv
    rw [hv']
    simp [Decimal.new, hv']

/-- C8 (confirmed): the validator guarantees the packer's safety: a
validated string is non-empty (guarding the first-character unwrap), and
every position the packing loop reads from the padded digit string is in
bounds and holds an ASCII digit, so the `- b'0'` subtraction only ever
sees digit characters. -/
theorem C8_packer_safety (s : List Char) (hv : isValid s = true) :
    s ≠ [] ∧
    ∀ i, i < (paddedDigits s).length / 2 →
      2 * ((paddedDigits s).length / 2 - i) - 1 < (paddedDigits s).length ∧
      2 * ((paddedDigits s).length / 2 - i) - 2 < (paddedDigits s).length ∧
      ((paddedDigits s).getD
        (2 * ((paddedDigits s).length / 2 - i) - 1) default).isDigit = true ∧
      ((paddedDigits s).getD
        (2 * ((paddedDigits s).length / 2 - i) - 2) default).isDigit = true := by
  refine ⟨isValid_ne_nil hv, ?_⟩
  intro i hi
  have heven : (paddedDigits s).length = 2 * ((paddedDigits s).length / 2) :=
    paddedDigits_length s
  set N := (paddedDigits s).length / 2 with hN
  have hidx1 : 2 * (N - i) - 1 < (paddedDigits s).length := by omega
  have hidx2 : 2 * (N - i) - 2 < (paddedDigits s).length := by omega
  exact ⟨hidx1, hidx2, getD_isDigit_of_valid hv hidx1,
    getD_isDigit_of_valid hv hidx2⟩

/-- C8 (witness): the safety statement applied at `"+7"`. -/
theorem C8_witness :
    isValid "+7".data = true ∧ "+7".data ≠ [] :=
  ⟨by decide, (C8_packer_safety "+7".data (by decide)).1⟩

/-- C9 (confirmed): for every accepted non-zero-leading input with `k`
ASCII-digit characters, the packed byte vector has `⌈k/2⌉ = (k+1)/2`
bytes. -/
theorem C9_length_ceil (s : List Char) (hv : isValid s = true)
    (h0 : s.headD default ≠ '0') :
    (get_digits s).length = (digitCount s + 1) / 2 := by
  rw [get_digits_length, digitCount, ← cleanedDigits_eq_filter_isDigit hv]
  rw [paddedDigits]
  split
  · simp only [List.length_cons]
  · next heven =>
    simp only [bne_iff_ne, ne_eq, not_not] at heven
    omega

/-- C9 (witness): the length statement applied at `"12.5"`. -/
theorem C9_witness :
    isValid "12.5".data = true ∧ "12.5".data.headD default ≠ '0' ∧
      (get_digits "12.5".data).length = (digitCount "12.5".data + 1) / 2 :=
  ⟨by decide, by decide, C9_length_ceil _ (by decide) (by decide)⟩

/-- C10 (confirmed): `"12.3.4"` has more than one decimal point, yet
`is_valid` accepts it and `new` returns a present record whose
`num_of_decimals` is 1 — the count of characters between the first and
the second point — not 3, the count of all characters after the first
point. -/
theorem C10_multipoint :
    isValid "12.3.4".data = true ∧
      (Decimal.new "12.3.4".data).isSome = true ∧
      (Decimal.new "12.3.4".data).map Decimal.num_of_decimals = some 1 ∧
      (betweenFirstAndSecondPoint "12.3.4".data).length = 1 ∧
      specFracCount "12.3.4".data = 3 := by decide

end NapiDecimal
